import Mathlib

/-!
Verification of the (17, 9, 5) cyclic code encoder/decoder (`cai_cyclic`).

The embedding mirrors `src/lib.rs`: machine integers (`u16`, `u32`, `usize`)
become `Nat`, with explicit `% 2 ^ w` at the one place the code performs a
narrowing cast.  The external `binfield_matrix` crate is not part of the
repository; its two entry points are modelled from the spec's contract for it.
-/

set_option maxRecDepth 100000
set_option maxHeartbeats 4000000

namespace CaiCyclic

/-- Number of set bits of a natural number (`u32::count_ones`), computed by
structural recursion on a fuel argument bounding the number of binary digits;
`count_ones n` uses fuel `n`, which suffices since `n / 2` halves each step. -/
def count_onesAux : Nat → Nat → Nat
  | 0, _ => 0
  | fuel + 1, n => if n = 0 then 0 else n % 2 + count_onesAux fuel (n / 2)

/-- `u32::count_ones`: the Hamming weight of `n`. -/
def count_ones (n : Nat) : Nat := count_onesAux n n

/-- Modelled from the spec: the GF(2) parity (XOR-reduce of the popcount, §9)
used by the external `binfield_matrix` dependency for each matrix row. -/
def parity (n : Nat) : Nat := count_ones n % 2

/-- Modelled from the spec: `binfield_matrix::matrix_mul` — multiply the bit
vector `w` by a constant binary matrix over GF(2) (§2, §9).  The matrix is a
list of rows (transposed form, as in the source's `GEN`/`PAR` constants);
row `i` contributes the parity of `w AND row` as the next output bit,
most-significant first. -/
def matrix_mul (w : Nat) (rows : List Nat) : Nat :=
  rows.foldl (fun acc row => 2 * acc + parity (w &&& row)) 0

/-- Modelled from the spec: `binfield_matrix::matrix_mul_systematic` — the
systematic variant: the input vector becomes the high bits of the result,
followed by the matrix product as the low bits. -/
def matrix_mul_systematic (w : Nat) (rows : List Nat) : Nat :=
  rows.foldl (fun acc row => 2 * acc + parity (w &&& row)) w

/-- Transpose of the generator matrix, without the identity part. -/
def GEN : List Nat := [
  0b100111100,
  0b010011110,
  0b001001111,
  0b100011011,
  0b110110001,
  0b111100100,
  0b011110010,
  0b001111001]

/-- Transpose of the parity-check matrix. -/
def PAR : List Nat := [
  0b10011110010000000,
  0b01001111001000000,
  0b00100111100100000,
  0b10001101100010000,
  0b11011000100001000,
  0b11110010000000100,
  0b01111001000000010,
  0b00111100100000001]

/-- Maps each 8-bit syndrome to an error pattern (the source's 256-entry
`PATTERNS` array, laid out exactly as written there). -/
def PATTERNS : List Nat := [
  0,
  0b00000000000000001,
  0,
  0b00000000000000011,
  0,
  0b00000000000000101,
  0, 0, 0,
  0b00000000000001001,
  0, 0, 0, 0, 0, 0, 0,
  0b00000000000010001,
  0, 0, 0, 0, 0, 0, 0, 0, 0, 0, 0, 0, 0, 0, 0,
  0b00000000000100001,
  0, 0, 0, 0,
  0b00100000000000001,
  0, 0, 0, 0, 0, 0, 0, 0, 0, 0, 0, 0, 0, 0, 0, 0, 0,
  0b00000000100000001,
  0, 0, 0, 0, 0, 0, 0, 0,
  0b00000000001000001,
  0, 0, 0, 0, 0, 0, 0, 0, 0, 0, 0, 0, 0,
  0b01000000000000001,
  0, 0, 0, 0, 0, 0, 0, 0, 0, 0, 0, 0, 0, 0, 0, 0, 0, 0, 0, 0, 0, 0, 0, 0, 0, 0, 0, 0, 0,
  0, 0, 0, 0, 0, 0,
  0b00000001000000001,
  0, 0, 0, 0, 0, 0, 0, 0, 0, 0, 0, 0, 0,
  0b00000000010000001,
  0, 0, 0, 0, 0, 0, 0, 0, 0, 0, 0, 0,
  0b00010000000000001,
  0, 0, 0, 0, 0, 0, 0, 0, 0, 0, 0, 0, 0, 0,
  0b10000000000000001,
  0, 0, 0, 0, 0, 0, 0, 0, 0, 0, 0, 0, 0, 0, 0, 0, 0, 0, 0, 0, 0, 0, 0, 0, 0, 0, 0, 0, 0,
  0, 0, 0, 0, 0, 0, 0, 0, 0, 0, 0, 0, 0, 0, 0, 0, 0, 0, 0, 0, 0, 0, 0, 0, 0, 0, 0, 0, 0,
  0, 0,
  0b00001000000000001,
  0, 0, 0, 0, 0, 0, 0, 0, 0, 0,
  0b00000010000000001,
  0, 0, 0, 0, 0, 0, 0, 0, 0, 0,
  0b00000100000000001,
  0, 0, 0, 0, 0, 0, 0, 0, 0, 0, 0, 0, 0, 0, 0]

/-- Cyclically rotate the word right as if it was 17 bits long. -/
def rotate_17 (word : Nat) : Nat :=
  (word >>> 1) ||| ((word &&& 1) <<< 16)

/-- Encode the given 9 data bits into a 17-bit codeword (the body of `encode`
after its `assert_eq!` guard; see `encodeChecked` for the guard). -/
def encode (data : Nat) : Nat := matrix_mul_systematic data GEN

/-- One iteration of `decode`'s fold over `0..17`: compute the syndrome of the
current word, correct via the pattern table when possible, and rotate. -/
def decodeStep (p : Option Nat × Nat) : Option Nat × Nat :=
  let syndrome := matrix_mul p.2 PAR
  if syndrome = 0 then (p.1, rotate_17 p.2)
  else
    match PATTERNS.getD syndrome 0 with
    | 0 => (none, rotate_17 p.2)
    | pat => (some (count_ones pat), rotate_17 (p.2 ^^^ pat))

/-- Try to decode the given 17-bit word to the nearest codeword (the body of
`decode` after its `assert_eq!` guard; see `decodeChecked` for the guard).
The `(word >> 8) as u16` cast of the source is the explicit `% 65536`. -/
def decode (word : Nat) : Option (Nat × Nat) :=
  let r := (List.range 17).foldl (fun p _ => decodeStep p) (some 0, word)
  r.1.map (fun err => ((r.2 >>> 8) % 65536, err))

/-- `encode` with its `assert_eq!(data >> 9, 0)` precondition check: a panic is
modelled as an absent result. -/
def encodeChecked (data : Nat) : Option Nat :=
  if data >>> 9 = 0 then some (encode data) else none

/-- `decode` with its `assert_eq!(word >> 17, 0)` precondition check: a panic is
modelled as an absent result. -/
def decodeChecked (word : Nat) : Option (Option (Nat × Nat)) :=
  if word >>> 17 = 0 then some (decode word) else none

/-! ### Generic bit-vector groundwork -/

/-- Extract a pointwise Bool fact from a decided `List.range` sweep. -/
theorem all_range {f : Nat → Bool} {n : Nat} (h : (List.range n).all f = true) :
    ∀ i, i < n → f i = true :=
  fun i hi => List.all_eq_true.mp h i (List.mem_range.mpr hi)

theorem or_eq_xor_of_disjoint {a b : Nat} (h : a &&& b = 0) : a ||| b = a ^^^ b := by
  refine Nat.eq_of_testBit_eq fun i => ?_
  have h' := congrArg (fun x => Nat.testBit x i) h
  simp only [Nat.testBit_and, Nat.zero_testBit] at h'
  simp only [Nat.testBit_or, Nat.testBit_xor]
  cases ha : a.testBit i <;> cases hb : b.testBit i <;> simp_all

theorem xor_shiftLeft (a b k : Nat) : (a ^^^ b) <<< k = (a <<< k) ^^^ (b <<< k) := by
  refine Nat.eq_of_testBit_eq fun i => ?_
  simp only [Nat.testBit_shiftLeft, Nat.testBit_xor]
  cases decide (i ≥ k) <;> simp

theorem xor_shiftRight (a b k : Nat) : (a ^^^ b) >>> k = (a >>> k) ^^^ (b >>> k) := by
  refine Nat.eq_of_testBit_eq fun i => ?_
  simp [Nat.testBit_shiftRight, Nat.testBit_xor]

theorem xor_eq_add_of_lt : ∀ (k a m : Nat), m < 2 ^ k →
    (a <<< k) ^^^ m = a * 2 ^ k + m := by
  intro k
  induction k with
  | zero =>
    intro a m hm
    rw [pow_zero] at hm
    rw [Nat.lt_one_iff.mp hm]
    simp [Nat.shiftLeft_zero]
  | succ k ih =>
    intro a m hm
    cases m using Nat.bitCasesOn with
    | h b m' =>
      have hbv := Nat.bit_val b m'
      have hbt : b.toNat ≤ 1 := by cases b <;> simp
      have hm' : m' < 2 ^ k := by
        rw [Nat.pow_succ] at hm
        omega
      have h1 : a <<< (k + 1) = Nat.bit false (a <<< k) := by
        rw [Nat.bit_val, Nat.shiftLeft_eq, Nat.shiftLeft_eq, Nat.pow_succ]
        simp [Bool.toNat]
        ring
      rw [h1, Nat.xor_bit, show bne false b = b from by cases b <;> rfl,
        ih a m' hm', Nat.bit_val, Nat.bit_val, Nat.pow_succ]
      ring

theorem two_pow_xor_eq_add {k m : Nat} (hm : m < 2 ^ k) : (2 ^ k) ^^^ m = 2 ^ k + m := by
  have h := xor_eq_add_of_lt k 1 m hm
  rwa [Nat.one_shiftLeft, one_mul] at h

/-- Two functions additive over XOR below `2 ^ K` that agree on `0` and on all
single-bit values below `2 ^ K` agree everywhere below `2 ^ K`. -/
theorem additive_eq_on (K : Nat) (F G : Nat → Nat)
    (hF : ∀ a b, a < 2 ^ K → b < 2 ^ K → F (a ^^^ b) = F a ^^^ F b)
    (hG : ∀ a b, a < 2 ^ K → b < 2 ^ K → G (a ^^^ b) = G a ^^^ G b)
    (h0 : F 0 = G 0) (hbase : ∀ i, i < K → F (2 ^ i) = G (2 ^ i)) :
    ∀ w, w < 2 ^ K → F w = G w := by
  suffices h : ∀ k, k ≤ K → ∀ w, w < 2 ^ k → F w = G w from fun w hw => h K le_rfl w hw
  intro k
  induction k with
  | zero =>
    intro _ w hw
    rw [pow_zero] at hw
    rw [Nat.lt_one_iff.mp hw]
    exact h0
  | succ k ih =>
    intro hk w hw
    by_cases hcase : w < 2 ^ k
    · exact ih (Nat.le_of_succ_le hk) w hcase
    · have hk' : k < K := Nat.lt_of_succ_le hk
      have hrlt : w - 2 ^ k < 2 ^ k := by
        rw [Nat.pow_succ] at hw
        omega
      have hwx : w = 2 ^ k ^^^ (w - 2 ^ k) := by
        rw [two_pow_xor_eq_add hrlt]
        omega
      have hp2 : (2 : Nat) ^ k < 2 ^ K := Nat.pow_lt_pow_right one_lt_two hk'
      have hrK : w - 2 ^ k < 2 ^ K := lt_trans hrlt hp2
      calc F w = F (2 ^ k ^^^ (w - 2 ^ k)) := by rw [← hwx]
        _ = F (2 ^ k) ^^^ F (w - 2 ^ k) := hF _ _ hp2 hrK
        _ = G (2 ^ k) ^^^ G (w - 2 ^ k) := by
            rw [hbase k hk', ih (Nat.le_of_succ_le hk) _ hrlt]
        _ = G (2 ^ k ^^^ (w - 2 ^ k)) := (hG _ _ hp2 hrK).symm
        _ = G w := by rw [← hwx]

/-! ### Hamming-weight and parity lemmas -/

theorem count_onesAux_zero (fuel : Nat) : count_onesAux fuel 0 = 0 := by
  cases fuel <;> simp [count_onesAux]

theorem count_onesAux_congr : ∀ (f : Nat), ∀ {g n : Nat}, n ≤ f → n ≤ g →
    count_onesAux f n = count_onesAux g n := by
  intro f
  induction f with
  | zero =>
    intro g n hf _
    rw [Nat.le_zero.mp hf]
    rw [count_onesAux_zero, count_onesAux_zero]
  | succ f ih =>
    intro g n hf hg
    match n, g with
    | 0, g => rw [count_onesAux_zero, count_onesAux_zero]
    | n + 1, g + 1 =>
      show (if n + 1 = 0 then 0 else (n + 1) % 2 + count_onesAux f ((n + 1) / 2))
        = (if n + 1 = 0 then 0 else (n + 1) % 2 + count_onesAux g ((n + 1) / 2))
      simp only [Nat.succ_ne_zero, if_false]
      have hdf : (n + 1) / 2 ≤ f := by omega
      have hdg : (n + 1) / 2 ≤ g := by omega
      rw [ih hdf hdg]

theorem count_ones_eq_aux {fuel n : Nat} (h : n ≤ fuel) :
    count_ones n = count_onesAux fuel n :=
  count_onesAux_congr n le_rfl h

theorem count_ones_zero : count_ones 0 = 0 := count_onesAux_zero 0

theorem count_ones_succ (n : Nat) :
    count_ones (n + 1) = (n + 1) % 2 + count_ones ((n + 1) / 2) := by
  show count_onesAux (n + 1) (n + 1) = _
  show (if n + 1 = 0 then 0 else (n + 1) % 2 + count_onesAux n ((n + 1) / 2)) = _
  simp only [Nat.succ_ne_zero, if_false]
  rw [← count_ones_eq_aux (by omega : (n + 1) / 2 ≤ n)]

theorem count_ones_bit (b : Bool) (n : Nat) :
    count_ones (Nat.bit b n) = b.toNat + count_ones n := by
  rw [Nat.bit_val]
  rcases n with _ | m
  · cases b <;> simp [count_ones_zero, count_ones_succ, Bool.toNat]
  · have h2 : 2 * (m + 1) + b.toNat = (2 * (m + 1) + b.toNat - 1) + 1 := by
      cases b <;> simp [Bool.toNat] <;> omega
    rw [h2, count_ones_succ, ← h2]
    have hmod : (2 * (m + 1) + b.toNat) % 2 = b.toNat := by
      cases b <;> simp [Bool.toNat] <;> omega
    have hdiv : (2 * (m + 1) + b.toNat) / 2 = m + 1 := by
      cases b <;> simp [Bool.toNat] <;> omega
    rw [hmod, hdiv]

theorem parity_le_one (n : Nat) : parity n ≤ 1 :=
  Nat.lt_succ_iff.mp (Nat.mod_lt _ (by omega))

theorem parity_zero : parity 0 = 0 := by simp [parity, count_ones_zero]

theorem parity_bit (b : Bool) (n : Nat) :
    parity (Nat.bit b n) = (b.toNat + parity n) % 2 := by
  simp only [parity, count_ones_bit]
  omega

theorem parity_xor (a : Nat) : ∀ b : Nat, parity (a ^^^ b) = (parity a + parity b) % 2 := by
  induction a using Nat.binaryRec with
  | z =>
    intro b
    have h := parity_le_one b
    simp [parity_zero]
    omega
  | f a' n ih =>
    intro b
    cases b using Nat.bitCasesOn with
    | h b' m =>
      rw [Nat.xor_bit, parity_bit, parity_bit, parity_bit, ih m]
      have h1 := parity_le_one n
      have h2 := parity_le_one m
      cases a' <;> cases b' <;> simp [Bool.toNat] <;> omega

/-! ### Matrix-multiplication algebra over GF(2) -/

theorem xor_mix (A B C D : Nat) : (A ^^^ B) ^^^ (C ^^^ D) = (A ^^^ C) ^^^ (B ^^^ D) := by
  rw [Nat.xor_assoc, Nat.xor_assoc]
  congr 1
  rw [← Nat.xor_assoc, ← Nat.xor_assoc]
  congr 1
  exact Nat.xor_comm B C

theorem step_xor {p q : Nat} (x y : Nat) (hp : p ≤ 1) (hq : q ≤ 1) :
    (2 * x + p) ^^^ (2 * y + q) = 2 * (x ^^^ y) + (p + q) % 2 := by
  rcases Nat.le_one_iff_eq_zero_or_eq_one.mp hp with rfl | rfl <;>
    rcases Nat.le_one_iff_eq_zero_or_eq_one.mp hq with rfl | rfl
  · simpa [Nat.bit_val] using Nat.xor_bit false x false y
  · simpa [Nat.bit_val] using Nat.xor_bit false x true y
  · simpa [Nat.bit_val] using Nat.xor_bit true x false y
  · simpa [Nat.bit_val] using Nat.xor_bit true x true y

theorem mm_fold_xor (a b : Nat) : ∀ (rows : List Nat) (x y : Nat),
    List.foldl (fun acc row => 2 * acc + parity ((a ^^^ b) &&& row)) (x ^^^ y) rows =
      List.foldl (fun acc row => 2 * acc + parity (a &&& row)) x rows ^^^
        List.foldl (fun acc row => 2 * acc + parity (b &&& row)) y rows := by
  intro rows
  induction rows with
  | nil => intro x y; rfl
  | cons r rows ih =>
    intro x y
    simp only [List.foldl_cons]
    have hx : 2 * (x ^^^ y) + parity ((a ^^^ b) &&& r) =
        (2 * x + parity (a &&& r)) ^^^ (2 * y + parity (b &&& r)) := by
      rw [Nat.and_xor_distrib_right, parity_xor,
        step_xor x y (parity_le_one _) (parity_le_one _)]
    rw [hx, ih]

theorem mm_fold_lt (w : Nat) : ∀ (rows : List Nat) (x : Nat),
    List.foldl (fun acc row => 2 * acc + parity (w &&& row)) x rows <
      (x + 1) * 2 ^ rows.length := by
  intro rows
  induction rows with
  | nil => intro x; simp
  | cons r rows ih =>
    intro x
    simp only [List.foldl_cons, List.length_cons]
    have h1 := ih (2 * x + parity (w &&& r))
    have h2 : parity (w &&& r) ≤ 1 := parity_le_one _
    calc List.foldl _ (2 * x + parity (w &&& r)) rows
        < (2 * x + parity (w &&& r) + 1) * 2 ^ rows.length := h1
      _ ≤ (2 * (x + 1)) * 2 ^ rows.length := by
          apply Nat.mul_le_mul_right
          omega
      _ = (x + 1) * 2 ^ (rows.length + 1) := by
          rw [Nat.pow_succ]
          ring

theorem mm_fold_acc (w : Nat) : ∀ (rows : List Nat) (x : Nat),
    List.foldl (fun acc row => 2 * acc + parity (w &&& row)) x rows =
      x * 2 ^ rows.length +
        List.foldl (fun acc row => 2 * acc + parity (w &&& row)) 0 rows := by
  intro rows
  induction rows with
  | nil => intro x; simp
  | cons r rows ih =>
    intro x
    simp only [List.foldl_cons]
    rw [ih (2 * x + parity (w &&& r)), ih (2 * 0 + parity (w &&& r)),
      List.length_cons, Nat.pow_succ]
    ring

theorem matrix_mul_xor (a b : Nat) (rows : List Nat) :
    matrix_mul (a ^^^ b) rows = matrix_mul a rows ^^^ matrix_mul b rows := by
  have h := mm_fold_xor a b rows 0 0
  simpa [matrix_mul] using h

theorem matrix_mul_lt (w : Nat) (rows : List Nat) :
    matrix_mul w rows < 2 ^ rows.length := by
  have h := mm_fold_lt w rows 0
  simpa [matrix_mul] using h

theorem syndrome_lt (w : Nat) : matrix_mul w PAR < 256 :=
  matrix_mul_lt w PAR

theorem gen_mul_lt (d : Nat) : matrix_mul d GEN < 256 :=
  matrix_mul_lt d GEN

theorem encode_eq_add (d : Nat) : encode d = d * 256 + matrix_mul d GEN := by
  simp only [encode, matrix_mul_systematic, matrix_mul]
  rw [mm_fold_acc d GEN d, show GEN.length = 8 from rfl]
  norm_num

theorem encode_lt {d : Nat} (hd : d < 512) : encode d < 131072 := by
  have h := gen_mul_lt d
  rw [encode_eq_add]
  omega

theorem encode_shiftRight (d : Nat) : encode d >>> 8 = d := by
  have h := gen_mul_lt d
  rw [encode_eq_add, Nat.shiftRight_eq_div_pow]
  show (d * 256 + matrix_mul d GEN) / 256 = d
  rw [Nat.mul_comm d 256, Nat.mul_add_div (by omega), Nat.div_eq_of_lt h]
  omega

theorem encode_mod (d : Nat) : encode d % 256 = matrix_mul d GEN := by
  have h := gen_mul_lt d
  rw [encode_eq_add, Nat.mul_comm d 256, Nat.mul_add_mod, Nat.mod_eq_of_lt h]

theorem encode_xor_form (d : Nat) : encode d = (d <<< 8) ^^^ matrix_mul d GEN := by
  have h8 : matrix_mul d GEN < 2 ^ 8 := by
    have h := gen_mul_lt d
    norm_num
    exact h
  rw [encode_eq_add, xor_eq_add_of_lt 8 d _ h8]
  norm_num

theorem encode_xor (a b : Nat) : encode (a ^^^ b) = encode a ^^^ encode b := by
  rw [encode_xor_form, encode_xor_form, encode_xor_form, matrix_mul_xor, xor_shiftLeft,
    xor_mix]

/-! ### Rotation lemmas -/

theorem two_pow_17_eq : (2 : Nat) ^ 17 = 131072 := by norm_num

theorem two_pow_9_eq : (2 : Nat) ^ 9 = 512 := by norm_num

theorem two_pow_8_eq : (2 : Nat) ^ 8 = 256 := by norm_num

theorem lt_two_pow_17 {w : Nat} (h : w < 131072) : w < 2 ^ 17 := by
  rw [two_pow_17_eq]
  exact h

theorem xor_lt_131072 {a b : Nat} (ha : a < 131072) (hb : b < 131072) :
    a ^^^ b < 131072 := by
  have h := Nat.xor_lt_two_pow (lt_two_pow_17 ha) (lt_two_pow_17 hb)
  rwa [two_pow_17_eq] at h

theorem rot_disjoint {w : Nat} (hw : w < 131072) :
    (w >>> 1) &&& ((w &&& 1) <<< 16) = 0 := by
  refine Nat.eq_of_testBit_eq fun i => ?_
  simp only [Nat.testBit_and, Nat.testBit_shiftLeft, Nat.testBit_shiftRight,
    Nat.zero_testBit]
  by_cases h16 : i = 16
  · subst h16
    have h17 : w.testBit 17 = false := Nat.testBit_lt_two_pow (lt_two_pow_17 hw)
    simp [h17]
  · rcases Nat.lt_or_ge i 16 with hlt | hge
    · have hd : decide (i ≥ 16) = false := by simp; omega
      simp [hd]
    · have h1b : Nat.testBit 1 (i - 16) = false := by
        apply Nat.testBit_lt_two_pow
        calc (1 : Nat) < 2 ^ 1 := by norm_num
          _ ≤ 2 ^ (i - 16) := Nat.pow_le_pow_right (by omega) (by omega)
      simp [h1b]

theorem rot_eq_xor {w : Nat} (hw : w < 131072) :
    rotate_17 w = (w >>> 1) ^^^ ((w &&& 1) <<< 16) := by
  simp only [rotate_17]
  exact or_eq_xor_of_disjoint (rot_disjoint hw)

theorem rot_lt {w : Nat} (hw : w < 131072) : rotate_17 w < 131072 := by
  have h1 : w >>> 1 < 2 ^ 17 := by
    rw [Nat.shiftRight_eq_div_pow, two_pow_17_eq]
    omega
  have h2 : (w &&& 1) <<< 16 < 2 ^ 17 := by
    have h := Nat.and_le_right (n := w) (m := 1)
    rw [Nat.shiftLeft_eq, two_pow_17_eq]
    have : (w &&& 1) * 2 ^ 16 ≤ 1 * 2 ^ 16 := Nat.mul_le_mul_right _ h
    omega
  have h := Nat.or_lt_two_pow h1 h2
  rw [two_pow_17_eq] at h
  exact h

theorem rot_xor {a b : Nat} (ha : a < 131072) (hb : b < 131072) :
    rotate_17 (a ^^^ b) = rotate_17 a ^^^ rotate_17 b := by
  rw [rot_eq_xor (xor_lt_131072 ha hb), rot_eq_xor ha, rot_eq_xor hb, xor_shiftRight,
    Nat.and_xor_distrib_right, xor_shiftLeft, xor_mix]

theorem rot_iter_lt (k : Nat) {w : Nat} (hw : w < 131072) :
    rotate_17^[k] w < 131072 := by
  induction k with
  | zero => simpa using hw
  | succ k ih =>
    rw [Function.iterate_succ_apply']
    exact rot_lt ih

theorem rot_iter_xor (k : Nat) {a b : Nat} (ha : a < 131072) (hb : b < 131072) :
    rotate_17^[k] (a ^^^ b) = rotate_17^[k] a ^^^ rotate_17^[k] b := by
  induction k with
  | zero => simp
  | succ k ih =>
    rw [Function.iterate_succ_apply', Function.iterate_succ_apply',
      Function.iterate_succ_apply', ih]
    exact rot_xor (rot_iter_lt k ha) (rot_iter_lt k hb)

theorem rot17_base : (List.range 17).all
    (fun i => decide (rotate_17^[17] (2 ^ i) = 2 ^ i)) = true := by decide

theorem rot17_id {w : Nat} (hw : w < 131072) : rotate_17^[17] w = w := by
  refine additive_eq_on 17 (rotate_17^[17]) (fun x => x) ?_ ?_ ?_ ?_ w (lt_two_pow_17 hw)
  · intro a b ha hb
    rw [two_pow_17_eq] at ha hb
    exact rot_iter_xor 17 ha hb
  · intro a b _ _
    rfl
  · decide
  · intro i hi
    exact of_decide_eq_true (all_range rot17_base i hi)

/-! ### Syndrome facts: basis checks plus linearity -/

theorem shiftRight8_lt {w : Nat} (hw : w < 131072) : w >>> 8 < 512 := by
  rw [Nat.shiftRight_eq_div_pow]
  norm_num
  omega

theorem syndid_base : (List.range 8).all
    (fun i => decide (matrix_mul (2 ^ i) PAR = 2 ^ i)) = true := by decide

theorem synd_encode_base : (List.range 9).all
    (fun i => decide (matrix_mul (encode (2 ^ i)) PAR = 0)) = true := by decide

theorem synd_rot_encode_base : (List.range 9).all
    (fun i => decide (matrix_mul (rotate_17 (encode (2 ^ i))) PAR = 0)) = true := by decide

/-- The syndrome map vanishes on every codeword. -/
theorem syndrome_encode_zero : ∀ d, d < 512 → matrix_mul (encode d) PAR = 0 := by
  intro d hd
  refine additive_eq_on 9 (fun x => matrix_mul (encode x) PAR) (fun _ => 0) ?_ ?_ ?_ ?_ d
    (by rw [two_pow_9_eq]; exact hd)
  · intro a b _ _
    simp only
    rw [encode_xor, matrix_mul_xor]
  · intro a b _ _
    simp
  · decide
  · intro i hi
    exact of_decide_eq_true (all_range synd_encode_base i hi)

/-- On 8-bit values the syndrome map is the identity (the parity-check matrix
ends in an 8×8 identity block). -/
theorem syndrome_id_lt_256 : ∀ v, v < 256 → matrix_mul v PAR = v := by
  intro v hv
  refine additive_eq_on 8 (fun x => matrix_mul x PAR) (fun x => x) ?_ ?_ ?_ ?_ v
    (by rw [two_pow_8_eq]; exact hv)
  · intro a b _ _
    exact matrix_mul_xor a b PAR
  · intro a b _ _
    rfl
  · decide
  · intro i hi
    exact of_decide_eq_true (all_range syndid_base i hi)

/-- The syndrome map also vanishes on rotated codewords (cyclicity). -/
theorem syndrome_rot_encode_zero : ∀ d, d < 512 →
    matrix_mul (rotate_17 (encode d)) PAR = 0 := by
  intro d hd
  refine additive_eq_on 9 (fun x => matrix_mul (rotate_17 (encode x)) PAR) (fun _ => 0)
    ?_ ?_ ?_ ?_ d (by rw [two_pow_9_eq]; exact hd)
  · intro a b ha hb
    rw [two_pow_9_eq] at ha hb
    simp only
    rw [encode_xor, rot_xor (encode_lt ha) (encode_lt hb), matrix_mul_xor]
  · intro a b _ _
    simp
  · decide
  · intro i hi
    exact of_decide_eq_true (all_range synd_rot_encode_base i hi)

/-- Core of C4, forward direction: a 17-bit word with zero syndrome is the
systematic encoding of its own top 9 bits. -/
theorem codeword_of_syndrome_zero {w : Nat} (hw : w < 131072)
    (hs : matrix_mul w PAR = 0) : w = encode (w >>> 8) := by
  have hd : w >>> 8 < 512 := shiftRight8_lt hw
  have hcs : matrix_mul (encode (w >>> 8)) PAR = 0 := syndrome_encode_zero _ hd
  have hlow : w ^^^ encode (w >>> 8) < 256 := by
    have hsr : (w ^^^ encode (w >>> 8)) >>> 8 = 0 := by
      rw [xor_shiftRight, encode_shiftRight]
      exact Nat.xor_self _
    rw [Nat.shiftRight_eq_div_pow] at hsr
    norm_num at hsr
    omega
  have hsx : matrix_mul (w ^^^ encode (w >>> 8)) PAR = w ^^^ encode (w >>> 8) :=
    syndrome_id_lt_256 _ hlow
  have hx0 : matrix_mul (w ^^^ encode (w >>> 8)) PAR = 0 := by
    rw [matrix_mul_xor, hs, hcs]
    simp
  have hz : w ^^^ encode (w >>> 8) = 0 := by
    rw [← hsx]
    exact hx0
  have h2 := congrArg (fun x => x ^^^ encode (w >>> 8)) hz
  simpa [Nat.xor_assoc] using h2

/-- Rotating a codeword yields a codeword. -/
theorem rot_encode {d : Nat} (hd : d < 512) :
    rotate_17 (encode d) = encode ((rotate_17 (encode d)) >>> 8) :=
  codeword_of_syndrome_zero (rot_lt (encode_lt hd)) (syndrome_rot_encode_zero d hd)

/-! ### Pattern-table facts -/

theorem tbl_all : (List.range 256).all (fun s =>
    decide (PATTERNS.getD s 0 < 131072) && decide (count_ones (PATTERNS.getD s 0) ≤ 2) &&
      (decide (PATTERNS.getD s 0 = 0) || decide (1 ≤ count_ones (PATTERNS.getD s 0))))
    = true := by decide

theorem tbl_fact {s : Nat} (hs : s < 256) :
    PATTERNS.getD s 0 < 131072 ∧ count_ones (PATTERNS.getD s 0) ≤ 2 ∧
      (PATTERNS.getD s 0 = 0 ∨ 1 ≤ count_ones (PATTERNS.getD s 0)) := by
  have h := all_range tbl_all s hs
  simp only [Bool.and_eq_true, Bool.or_eq_true, decide_eq_true_eq] at h
  exact ⟨h.1.1, h.1.2, h.2⟩

/-! ### Decode infrastructure -/

theorem foldl_const_eq_iterate {α β : Type} (f : α → α) :
    ∀ (l : List β) (init : α), l.foldl (fun p _ => f p) init = f^[l.length] init := by
  intro l
  induction l with
  | nil => intro init; rfl
  | cons x l ih =>
    intro init
    rw [List.foldl_cons, List.length_cons, Function.iterate_succ_apply]
    exact ih (f init)

theorem decode_iterate (word : Nat) : decode word =
    ((decodeStep^[17] (some 0, word)).1).map
      (fun err => (((decodeStep^[17] (some 0, word)).2 >>> 8) % 65536, err)) := by
  simp only [decode]
  rw [foldl_const_eq_iterate decodeStep (List.range 17), List.length_range]

theorem decodeStep_s0 {p : Option Nat × Nat} (h : matrix_mul p.2 PAR = 0) :
    decodeStep p = (p.1, rotate_17 p.2) := by
  simp only [decodeStep]
  rw [if_pos h]

theorem decodeStep_pat0 {p : Option Nat × Nat} (h1 : matrix_mul p.2 PAR ≠ 0)
    (h2 : PATTERNS.getD (matrix_mul p.2 PAR) 0 = 0) :
    decodeStep p = (none, rotate_17 p.2) := by
  simp only [decodeStep]
  rw [if_neg h1, h2]

theorem decodeStep_corr {p : Option Nat × Nat} {m : Nat}
    (h1 : matrix_mul p.2 PAR ≠ 0)
    (h2 : PATTERNS.getD (matrix_mul p.2 PAR) 0 = m + 1) :
    decodeStep p = (some (count_ones (m + 1)), rotate_17 (p.2 ^^^ (m + 1))) := by
  simp only [decodeStep]
  rw [if_neg h1, h2]
  rfl

theorem pat_lt {s : Nat} : PATTERNS.getD (matrix_mul s PAR) 0 < 131072 :=
  (tbl_fact (syndrome_lt s)).1

theorem decodeStep_snd_lt {p : Option Nat × Nat} (h : p.2 < 131072) :
    (decodeStep p).2 < 131072 := by
  by_cases hs : matrix_mul p.2 PAR = 0
  · rw [decodeStep_s0 hs]
    exact rot_lt h
  · cases hpat : PATTERNS.getD (matrix_mul p.2 PAR) 0 with
    | zero =>
      rw [decodeStep_pat0 hs hpat]
      exact rot_lt h
    | succ m =>
      rw [decodeStep_corr hs hpat]
      apply rot_lt
      apply xor_lt_131072 h
      have hp := (tbl_fact (syndrome_lt p.2)).1
      rw [hpat] at hp
      exact hp

theorem iter_snd_lt (k : Nat) {p : Option Nat × Nat} (h : p.2 < 131072) :
    (decodeStep^[k] p).2 < 131072 := by
  induction k with
  | zero => simpa using h
  | succ k ih =>
    rw [Function.iterate_succ_apply']
    exact decodeStep_snd_lt ih

theorem decodeStep_fst_le {p : Option Nat × Nat}
    (hp : ∀ n, p.1 = some n → n ≤ 2) :
    ∀ n, (decodeStep p).1 = some n → n ≤ 2 := by
  intro n hn
  by_cases hs : matrix_mul p.2 PAR = 0
  · rw [decodeStep_s0 hs] at hn
    exact hp n hn
  · cases hpat : PATTERNS.getD (matrix_mul p.2 PAR) 0 with
    | zero =>
      rw [decodeStep_pat0 hs hpat] at hn
      simp at hn
    | succ m =>
      rw [decodeStep_corr hs hpat] at hn
      have ht := (tbl_fact (syndrome_lt p.2)).2.1
      rw [hpat] at ht
      simp at hn
      omega

theorem iter_fst_le (k : Nat) {p : Option Nat × Nat}
    (hp : ∀ n, p.1 = some n → n ≤ 2) :
    ∀ n, (decodeStep^[k] p).1 = some n → n ≤ 2 := by
  induction k with
  | zero => simpa using hp
  | succ k ih =>
    rw [Function.iterate_succ_apply']
    exact decodeStep_fst_le ih

/-- If a full run ends with the accumulator `some 0`, every step took the
zero-syndrome branch; in particular the initial syndrome was zero. -/
theorem iter_peel : ∀ (k : Nat) (fx : Option Nat) (u : Nat),
    (decodeStep^[k] (fx, u)).1 = some 0 →
    fx = some 0 ∧ (k ≠ 0 → matrix_mul u PAR = 0) := by
  intro k
  induction k with
  | zero =>
    intro fx u h
    exact ⟨h, fun h' => absurd rfl h'⟩
  | succ k ih =>
    intro fx u h
    rw [Function.iterate_succ_apply] at h
    by_cases hs : matrix_mul u PAR = 0
    · have hstep : decodeStep (fx, u) = (fx, rotate_17 u) := decodeStep_s0 hs
      rw [hstep] at h
      exact ⟨(ih fx (rotate_17 u) h).1, fun _ => hs⟩
    · cases hpat : PATTERNS.getD (matrix_mul u PAR) 0 with
      | zero =>
        have hstep : decodeStep (fx, u) = (none, rotate_17 u) := decodeStep_pat0 hs hpat
        rw [hstep] at h
        have h1 := (ih none _ h).1
        simp at h1
      | succ m =>
        have hstep : decodeStep (fx, u)
            = (some (count_ones (m + 1)), rotate_17 (u ^^^ (m + 1))) :=
          decodeStep_corr hs hpat
        rw [hstep] at h
        have h1 := (ih _ _ h).1
        have ht := (tbl_fact (syndrome_lt u)).2.2
        rw [hpat] at ht
        have hc1 : 1 ≤ count_ones (m + 1) := by
          rcases ht with h' | h'
          · exact absurd h' (Nat.succ_ne_zero m)
          · exact h'
        simp at h1
        omega

/-! ### Trace correspondence: a codeword component rides along unchanged -/

theorem rot_iter_encode {d : Nat} (hd : d < 512) :
    ∀ k, ∃ d', d' < 512 ∧ rotate_17^[k] (encode d) = encode d' := by
  intro k
  induction k with
  | zero => exact ⟨d, hd, rfl⟩
  | succ k ih =>
    obtain ⟨d', hd', h⟩ := ih
    refine ⟨(rotate_17 (encode d')) >>> 8, shiftRight8_lt (rot_lt (encode_lt hd')), ?_⟩
    rw [Function.iterate_succ_apply', h]
    exact rot_encode hd'

theorem trace_step (fx : Option Nat) {c u : Nat} (hc : c < 131072) (hu : u < 131072)
    (hcs : matrix_mul c PAR = 0) :
    decodeStep (fx, c ^^^ u) =
      ((decodeStep (fx, u)).1, rotate_17 c ^^^ (decodeStep (fx, u)).2) := by
  have hsynd : matrix_mul (c ^^^ u) PAR = matrix_mul u PAR := by
    rw [matrix_mul_xor, hcs]
    simp
  by_cases hs : matrix_mul u PAR = 0
  · have h1 : decodeStep (fx, c ^^^ u) = (fx, rotate_17 (c ^^^ u)) :=
      decodeStep_s0 (hsynd.trans hs)
    have h2 : decodeStep (fx, u) = (fx, rotate_17 u) := decodeStep_s0 hs
    rw [h1, h2, rot_xor hc hu]
  · have hs' : matrix_mul (c ^^^ u) PAR ≠ 0 := by
      rw [hsynd]
      exact hs
    cases hpat : PATTERNS.getD (matrix_mul u PAR) 0 with
    | zero =>
      have hpat' : PATTERNS.getD (matrix_mul (c ^^^ u) PAR) 0 = 0 := by
        rw [hsynd]
        exact hpat
      have h1 : decodeStep (fx, c ^^^ u) = (none, rotate_17 (c ^^^ u)) :=
        decodeStep_pat0 hs' hpat'
      have h2 : decodeStep (fx, u) = (none, rotate_17 u) := decodeStep_pat0 hs hpat
      rw [h1, h2, rot_xor hc hu]
    | succ m =>
      have hpat' : PATTERNS.getD (matrix_mul (c ^^^ u) PAR) 0 = m + 1 := by
        rw [hsynd]
        exact hpat
      have hplt : m + 1 < 131072 := by
        have h := (tbl_fact (syndrome_lt u)).1
        rw [hpat] at h
        exact h
      have h1 : decodeStep (fx, c ^^^ u) =
          (some (count_ones (m + 1)), rotate_17 ((c ^^^ u) ^^^ (m + 1))) :=
        decodeStep_corr hs' hpat'
      have h2 : decodeStep (fx, u) =
          (some (count_ones (m + 1)), rotate_17 (u ^^^ (m + 1))) :=
        decodeStep_corr hs hpat
      rw [h1, h2, Nat.xor_assoc, rot_xor hc (xor_lt_131072 hu hplt)]

theorem trace_iter (k : Nat) {d u : Nat} (hd : d < 512) (hu : u < 131072) :
    decodeStep^[k] (some 0, encode d ^^^ u) =
      ((decodeStep^[k] (some 0, u)).1,
        rotate_17^[k] (encode d) ^^^ (decodeStep^[k] (some 0, u)).2) := by
  induction k with
  | zero => simp
  | succ k ih =>
    simp only [Function.iterate_succ_apply']
    rw [ih]
    obtain ⟨d', hd', hrot⟩ := rot_iter_encode hd k
    have hc' : rotate_17^[k] (encode d) < 131072 := rot_iter_lt k (encode_lt hd)
    have hcs' : matrix_mul (rotate_17^[k] (encode d)) PAR = 0 := by
      rw [hrot]
      exact syndrome_encode_zero d' hd'
    have hu' : (decodeStep^[k] (some 0, u)).2 < 131072 := iter_snd_lt k hu
    exact trace_step (decodeStep^[k] (some 0, u)).1 hc' hu' hcs'

/-- Running the decoder on `encode d XOR u` when the pure-error run on `u`
finishes in state `(some n, 0)` recovers `d` with correction count `n`. -/
theorem decode_cw_xor {d u n : Nat} (hd : d < 512) (hu : u < 131072)
    (hrun : decodeStep^[17] (some 0, u) = (some n, 0)) :
    decode (encode d ^^^ u) = some (d, n) := by
  rw [decode_iterate, trace_iter 17 hd hu, hrun]
  rw [rot17_id (encode_lt hd), Nat.xor_zero, encode_shiftRight,
    Nat.mod_eq_of_lt (lt_of_lt_of_le hd (by norm_num))]
  rfl

/-- Zero-error run: the all-zero word decodes forever through the
zero-syndrome branch. -/
theorem zero_run : decodeStep^[17] ((some 0 : Option Nat), (0 : Nat)) = (some 0, 0) := by
  decide

/-- Decoding an unmodified codeword returns its data word with zero
corrections (shared core of several claims). -/
theorem decode_encode {d : Nat} (hd : d < 512) : decode (encode d) = some (d, 0) := by
  have h := decode_cw_xor hd (by omega) zero_run
  rwa [Nat.xor_zero] at h

/-! ### Concrete error-pattern runs -/

theorem single_runs : (List.range 17).all (fun i =>
    decide (decodeStep^[17] ((some 0 : Option Nat), 1 <<< i) = (some 1, 0))) = true := by
  decide

theorem double_runs : (List.range 17).all (fun i => (List.range 17).all (fun j =>
    (i == j) || decide (decodeStep^[17] ((some 0 : Option Nat), (1 <<< i) ^^^ (1 <<< j))
      = (some 2, 0)))) = true := by
  decide

/-! ### Width-predicate helpers -/

theorem sr17_zero_iff {w : Nat} : w >>> 17 = 0 ↔ w < 131072 := by
  rw [Nat.shiftRight_eq_div_pow]
  norm_num
  omega

theorem sr9_zero_iff {w : Nat} : w >>> 9 = 0 ↔ w < 512 := by
  rw [Nat.shiftRight_eq_div_pow]
  norm_num
  omega

/-! ### Claim theorems -/

/-- C1: for every data word `d` in `[0, 512)`, decoding the encoding of `d`
with no injected errors returns `some (d, 0)`. -/
theorem roundtrip_zero_errors : ∀ d, d < 512 → decode (encode d) = some (d, 0) :=
  fun _ hd => decode_encode hd

theorem roundtrip_zero_errors_witness :
    42 < 512 ∧ decode (encode 42) = some (42, 0) :=
  ⟨by norm_num, roundtrip_zero_errors 42 (by norm_num)⟩

/-- C2: for every data word `d` in `[0, 512)`, the decoder corrects every
single-bit error reporting one correction, and every double-bit error
reporting two corrections. -/
theorem correct_up_to_two_errors : ∀ d, d < 512 →
    (∀ i, i < 17 → decode (encode d ^^^ (1 <<< i)) = some (d, 1)) ∧
    (∀ i, i < 17 → ∀ j, j < 17 → i ≠ j →
      decode (encode d ^^^ (1 <<< i) ^^^ (1 <<< j)) = some (d, 2)) := by
  intro d hd
  have hbit : ∀ i, i < 17 → (1 : Nat) <<< i < 131072 := by
    intro i hi
    rw [Nat.shiftLeft_eq, one_mul, ← two_pow_17_eq]
    exact Nat.pow_lt_pow_right one_lt_two hi
  constructor
  · intro i hi
    have hrun : decodeStep^[17] ((some 0 : Option Nat), 1 <<< i) = (some 1, 0) :=
      of_decide_eq_true (all_range single_runs i hi)
    exact decode_cw_xor hd (hbit i hi) hrun
  · intro i hi j hj hij
    have hrow := all_range double_runs i hi
    have hcell := all_range hrow j hj
    have hb : (i == j) = false := by
      simp only [beq_eq_false_iff_ne]
      exact hij
    rw [hb, Bool.false_or] at hcell
    have hrun : decodeStep^[17] ((some 0 : Option Nat), (1 <<< i) ^^^ (1 <<< j)) =
        (some 2, 0) := of_decide_eq_true hcell
    have h := decode_cw_xor hd (xor_lt_131072 (hbit i hi) (hbit j hj)) hrun
    rw [Nat.xor_assoc]
    exact h

theorem correct_up_to_two_errors_witness :
    7 < 512 ∧ 3 < 17 ∧ 11 < 17 ∧ (3 : Nat) ≠ 11 ∧
      decode (encode 7 ^^^ (1 <<< 3)) = some (7, 1) ∧
      decode (encode 7 ^^^ (1 <<< 3) ^^^ (1 <<< 11)) = some (7, 2) :=
  ⟨by norm_num, by norm_num, by norm_num, by norm_num,
    (correct_up_to_two_errors 7 (by norm_num)).1 3 (by norm_num),
    (correct_up_to_two_errors 7 (by norm_num)).2 3 (by norm_num) 11 (by norm_num)
      (by norm_num)⟩

/-- C3: encoding is systematic — the codeword fits in 17 bits, its top 9 bits
are the data word, and its low 8 bits are the parity `matrix_mul data GEN`. -/
theorem encode_systematic_postcondition : ∀ d, d < 512 →
    encode d >>> 17 = 0 ∧ encode d >>> 8 = d ∧ encode d % 256 = matrix_mul d GEN :=
  fun d hd => ⟨sr17_zero_iff.mpr (encode_lt hd), encode_shiftRight d, encode_mod d⟩

theorem encode_systematic_postcondition_witness :
    5 < 512 ∧ (encode 5 >>> 17 = 0 ∧ encode 5 >>> 8 = 5 ∧
      encode 5 % 256 = matrix_mul 5 GEN) :=
  ⟨by norm_num, encode_systematic_postcondition 5 (by norm_num)⟩

/-- C4: for a 17-bit word, the syndrome is zero exactly when the word is a
valid codeword, i.e. in the image of `encode`. -/
theorem syndrome_zero_iff_codeword : ∀ w, w >>> 17 = 0 →
    (matrix_mul w PAR = 0 ↔ ∃ d, d < 512 ∧ w = encode d) := by
  intro w hw
  have hw' := sr17_zero_iff.mp hw
  constructor
  · intro hs
    exact ⟨w >>> 8, shiftRight8_lt hw', codeword_of_syndrome_zero hw' hs⟩
  · rintro ⟨d, hd, rfl⟩
    exact syndrome_encode_zero d hd

theorem syndrome_zero_iff_codeword_witness :
    (0 : Nat) >>> 17 = 0 ∧ (matrix_mul 0 PAR = 0 ↔ ∃ d, d < 512 ∧ (0 : Nat) = encode d) :=
  ⟨rfl, syndrome_zero_iff_codeword 0 rfl⟩

/-- C5: whenever decoding a 17-bit word succeeds, the reported correction
count is 0, 1 or 2 and the returned data word fits in 9 bits. -/
theorem decode_corrections_bounded : ∀ w, w >>> 17 = 0 → ∀ d e,
    decode w = some (d, e) → (e = 0 ∨ e = 1 ∨ e = 2) ∧ d >>> 9 = 0 := by
  intro w hw d e hde
  have hw' := sr17_zero_iff.mp hw
  rw [decode_iterate] at hde
  cases hfx : (decodeStep^[17] ((some 0 : Option Nat), w)).1 with
  | none =>
    rw [hfx] at hde
    simp at hde
  | some n =>
    rw [hfx] at hde
    simp only [Option.map] at hde
    have hpair := Option.some.inj hde
    have hfst : ∀ m, (decodeStep^[17] ((some 0 : Option Nat), w)).1 = some m → m ≤ 2 :=
      iter_fst_le 17 (fun m hm => by simp at hm; omega)
    have hn2 : n ≤ 2 := hfst n hfx
    have hsnd : (decodeStep^[17] ((some 0 : Option Nat), w)).2 < 131072 :=
      iter_snd_lt 17 hw'
    have hd9 : ((decodeStep^[17] ((some 0 : Option Nat), w)).2 >>> 8) % 65536 < 512 := by
      have h8 := shiftRight8_lt hsnd
      omega
    have hd' : d = ((decodeStep^[17] ((some 0 : Option Nat), w)).2 >>> 8) % 65536 :=
      (congrArg Prod.fst hpair).symm
    have he' : e = n := (congrArg Prod.snd hpair).symm
    refine ⟨by omega, ?_⟩
    rw [hd']
    exact sr9_zero_iff.mpr hd9

theorem decode_corrections_bounded_witness :
    (0 : Nat) >>> 17 = 0 ∧ decode 0 = some (0, 0) ∧
      ((0 = 0 ∨ 0 = 1 ∨ 0 = 2) ∧ (0 : Nat) >>> 9 = 0) :=
  ⟨rfl, by decide, decode_corrections_bounded 0 rfl 0 0 (by decide)⟩

theorem c6_sweep : (List.range 256).all (fun s =>
    (s % 2 != 0) || (s == 38) || (s == 56) || (s == 142) || (s == 218) || (s == 240) ||
      (PATTERNS.getD s 0 == 0)) = true := by decide

/-- C6 as frozen is false: syndrome 38 is even, lies in `[1, 256)`, and its
table entry is the non-zero pattern `0b00100000000000001`. -/
theorem patterns_even_syndrome_counterexample :
    1 ≤ 38 ∧ 38 < 256 ∧ 38 % 2 = 0 ∧ PATTERNS.getD 38 0 ≠ 0 := by decide

/-- C6 (amended): for every syndrome in `[1, 256)` with bit 0 clear, the
pattern-table entry is zero, except at the five even syndromes 38, 56, 142,
218 and 240 (whose entries are non-zero double-error patterns). -/
theorem patterns_even_syndrome_amended : ∀ s, 1 ≤ s → s < 256 → s % 2 = 0 →
    s ≠ 38 → s ≠ 56 → s ≠ 142 → s ≠ 218 → s ≠ 240 → PATTERNS.getD s 0 = 0 := by
  intro s h1 h2 hmod h38 h56 h142 h218 h240
  have h := all_range c6_sweep s h2
  simp only [Bool.or_eq_true, bne_iff_ne, beq_iff_eq] at h
  tauto

theorem patterns_even_syndrome_amended_witness :
    1 ≤ 4 ∧ 4 < 256 ∧ 4 % 2 = 0 ∧ PATTERNS.getD 4 0 = 0 :=
  ⟨by norm_num, by norm_num, by norm_num,
    patterns_even_syndrome_amended 4 (by norm_num) (by norm_num) (by norm_num)
      (by norm_num) (by norm_num) (by norm_num) (by norm_num) (by norm_num)⟩

/-- C7: seventeen rotations of a 17-bit value are the identity; one rotation
moves bit 0 to bit 16 and every other bit down one position; in particular
`rotate_17 0 = 0` and the value with only bit 16 set maps to bit 15. -/
theorem rotate_17_cycle :
    (∀ w, w >>> 17 = 0 → rotate_17^[17] w = w ∧
      (∀ i, i < 16 → (rotate_17 w).testBit i = w.testBit (i + 1)) ∧
      (rotate_17 w).testBit 16 = w.testBit 0) ∧
    rotate_17 0 = 0 ∧ rotate_17 (1 <<< 16) = 1 <<< 15 := by
  refine ⟨fun w hw => ⟨rot17_id (sr17_zero_iff.mp hw), ?_, ?_⟩, by decide, by decide⟩
  · intro i hi
    simp only [rotate_17, Nat.testBit_or, Nat.testBit_shiftLeft, Nat.testBit_shiftRight]
    have hd : decide (i ≥ 16) = false := by
      simp
      omega
    rw [hd]
    simp [Nat.add_comm 1 i]
  · simp only [rotate_17, Nat.testBit_or, Nat.testBit_shiftLeft, Nat.testBit_shiftRight]
    have h17 : w.testBit (1 + 16) = false :=
      Nat.testBit_lt_two_pow (lt_two_pow_17 (sr17_zero_iff.mp hw))
    rw [h17]
    simp [Nat.testBit_and]

theorem rotate_17_cycle_witness :
    (5 : Nat) >>> 17 = 0 ∧ rotate_17^[17] 5 = 5 :=
  ⟨rfl, (rotate_17_cycle.1 5 rfl).1⟩

/-- C8: the `assert_eq!` width guards reject any input with bits outside the
declared width and accept any input within it. -/
theorem width_contract_enforced : ∀ x,
    (x >>> 9 ≠ 0 → encodeChecked x = none) ∧
    (x >>> 9 = 0 → encodeChecked x = some (encode x)) ∧
    (x >>> 17 ≠ 0 → decodeChecked x = none) ∧
    (x >>> 17 = 0 → decodeChecked x = some (decode x)) := by
  intro x
  refine ⟨fun h => ?_, fun h => ?_, fun h => ?_, fun h => ?_⟩ <;>
    simp [encodeChecked, decodeChecked, h]

theorem width_contract_enforced_witness :
    (1000 : Nat) >>> 9 ≠ 0 ∧ encodeChecked 1000 = none ∧
      (511 : Nat) >>> 9 = 0 ∧ encodeChecked 511 = some (encode 511) :=
  ⟨by decide, (width_contract_enforced 1000).1 (by decide), by decide,
    (width_contract_enforced 511).2.1 (by decide)⟩

/-- C9: on any 17-bit word the checked decoder runs to completion and returns
a value; every syndrome is an 8-bit value, hence a valid index into the
256-entry pattern table. -/
theorem decode_total_in_bounds :
    (∀ w, w >>> 17 = 0 → decodeChecked w = some (decode w)) ∧
    PATTERNS.length = 256 ∧ (∀ w, matrix_mul w PAR < PATTERNS.length) := by
  refine ⟨fun w hw => by simp [decodeChecked, hw], by decide, fun w => ?_⟩
  have h := syndrome_lt w
  have hl : PATTERNS.length = 256 := by decide
  omega

theorem decode_total_in_bounds_witness :
    (0 : Nat) >>> 17 = 0 ∧ decodeChecked 0 = some (decode 0) ∧
      matrix_mul 3 PAR < PATTERNS.length :=
  ⟨rfl, decode_total_in_bounds.1 0 rfl, decode_total_in_bounds.2.2 3⟩

/-- C10: decoding a 17-bit word reports zero corrections exactly when the word
is already a valid codeword (the encoding of its own top 9 bits). -/
theorem zero_corrections_iff_codeword : ∀ w, w >>> 17 = 0 →
    ((∃ d, decode w = some (d, 0)) ↔ w = encode (w >>> 8)) := by
  intro w hw
  have hw' := sr17_zero_iff.mp hw
  constructor
  · rintro ⟨d, hd⟩
    rw [decode_iterate] at hd
    cases hfx : (decodeStep^[17] ((some 0 : Option Nat), w)).1 with
    | none =>
      rw [hfx] at hd
      simp at hd
    | some n =>
      rw [hfx] at hd
      simp only [Option.map] at hd
      have hn : n = 0 := congrArg Prod.snd (Option.some.inj hd)
      have hpeel := iter_peel 17 (some 0) w (by rw [hfx, hn])
      exact codeword_of_syndrome_zero hw' (hpeel.2 (by omega))
  · intro hcw
    refine ⟨w >>> 8, ?_⟩
    conv_lhs => rw [hcw]
    exact decode_encode (shiftRight8_lt hw')

theorem zero_corrections_iff_codeword_witness :
    (0 : Nat) >>> 17 = 0 ∧ ∃ d, decode 0 = some (d, 0) :=
  ⟨rfl, (zero_corrections_iff_codeword 0 rfl).mpr (by decide)⟩

-- Sanity checks against the repository's own test vectors.
example : encode 0b000000000 = 0b00000000000000000 := by decide
example : encode 0b111111111 = 0b11111111111111111 := by decide
example : encode 0b100000001 = 0b10000000110100101 := by decide
example : encode 0b000001001 = 0b00000100111001000 := by decide
example : encode 0b000001011 = 0b00000101110111010 := by decide
example : encode 0b000001010 = 0b00000101010000011 := by decide
example : encode 0b000001000 = 0b00000100011110001 := by decide
example : encode 0b001010101 = 0b00101010100100001 := by decide
example : rotate_17 0b10000000000000000 = 0b01000000000000000 := by decide
example : rotate_17 0b00000000000000001 = 0b10000000000000000 := by decide
example : decode (encode 0b001010101) = some (0b001010101, 0) := by decide
example : decode (encode 0b001010101 ^^^ (1 <<< 5)) = some (0b001010101, 1) := by decide
example : decode (encode 0b001010101 ^^^ (1 <<< 5) ^^^ (1 <<< 13)) = some (0b001010101, 2) := by decide

end CaiCyclic
